import Mathlib

/-!
# Verification of the PDATF ring-export layout engine

A shallow embedding, over exact real arithmetic, of the radial ring layout
and label-fitting code of the `PDATFRingExport` component (the second
ring-export variant of the repository; where the first variant differs, a
separately named definition records it).  JavaScript floating-point numbers
are modelled as real numbers, the `%` remainder operator as truncated
remainder, and SVG path strings as lists of path commands (`toFixed`
formatting of coordinates is not modelled; coordinates stay exact).
-/

namespace Ring

/-- A theme record `{id, name, order}`; `order` may be absent in the data
(the sort falls back to 999). -/
structure Theme where
  id : String
  order : Option Nat
  deriving DecidableEq, Repr

/-- A barrier record `{id, name, themeId}`. -/
structure Barrier where
  id : String
  name : String
  themeId : String
  deriving DecidableEq, Repr

/-- `START_ANGLE = -Math.PI / 2` (12 o'clock). -/
noncomputable def START_ANGLE : ℝ := -(Real.pi / 2)

/-- `CLOCKWISE = true`. -/
def CLOCKWISE : Bool := true

/-- `orderedThemes`: sort by `parseInt(order || 999)` ascending; JS `sort`
is stable, as is `mergeSort`. -/
def orderKey (t : Theme) : Nat := t.order.getD 999

def orderedThemes (list : List Theme) : List Theme :=
  list.mergeSort (fun a b => orderKey a ≤ orderKey b)

/-- The ordered theme ids the builder walks. -/
def ringThemeIds (themes : List Theme) : List String :=
  (orderedThemes themes).map (·.id)

/-- `groupBarriersByTheme`: a map keyed by the given theme ids; each key
holds, in input order, the barriers whose `themeId` equals it.  A barrier
whose `themeId` is not a key is dropped (`map[b.themeId]?.push`). -/
def groupBarriersByTheme (barriers : List Barrier) (themeIds : List String) :
    String → List Barrier :=
  fun tid =>
    if tid ∈ themeIds then barriers.filter (fun b => b.themeId == tid) else []

/-- `totalBarriers = barriers.length || 1`. -/
def ringTotalBarriers (barriers : List Barrier) : Nat :=
  if barriers.length = 0 then 1 else barriers.length

/-- `perBarrierSpan = (2π / totalBarriers) × (CLOCKWISE ? 1 : -1)`. -/
noncomputable def ringPerBarrierSpan (barriers : List Barrier) : ℝ :=
  2 * Real.pi / (ringTotalBarriers barriers) * (if CLOCKWISE then 1 else -1)

/-- `ellipsePoint(cx, cy, r, angle, stretch)`. -/
noncomputable def ellipsePoint (cx cy r angle stretch : ℝ) : ℝ × ℝ :=
  (cx + r * Real.cos angle, cy + r * stretch * Real.sin angle)

/-- JS truncation toward zero, as applied by the `%` operator. -/
noncomputable def jsTrunc (r : ℝ) : ℤ :=
  if 0 ≤ r then ⌊r⌋ else ⌈r⌉

/-- The JS `%` remainder: `x % y = x - y * trunc(x / y)` (sign of the
dividend). -/
noncomputable def jsMod (x y : ℝ) : ℝ :=
  x - y * jsTrunc (x / y)

/-- `normalizeDegrees(deg) = ((deg % 360) + 360) % 360`. -/
noncomputable def normalizeDegrees (deg : ℝ) : ℝ :=
  jsMod (jsMod deg 360 + 360) 360

open Classical in
/-- `shouldFlipAngle(angleRad)`: normalized degrees strictly between 90
and 270. -/
noncomputable def shouldFlipAngle (angleRad : ℝ) : Bool :=
  let deg := normalizeDegrees (angleRad * 180 / Real.pi)
  decide (90 < deg ∧ deg < 270)

/-- `midAngle(a0, a1) = (a0 + a1) / 2`. -/
noncomputable def midAngle (a0 a1 : ℝ) : ℝ := (a0 + a1) / 2

/-- An inner (theme) segment as the builder pushes it (fields the claims
need). -/
structure InnerSeg where
  themeId : String
  a0 : ℝ
  a1 : ℝ
  count : Nat

/-- An outer (barrier) segment as the builder pushes it (fields the claims
need). -/
structure OuterSeg where
  barrierId : String
  themeId : String
  a0 : ℝ
  a1 : ℝ
  mid : ℝ
  baseFlip : Bool

/-- The builder's inner `for (const b of blist)` loop: one outer segment
per barrier, the cursor advancing by `perBarrierSpan` each time.  Returns
the segments and the final cursor. -/
noncomputable def outerLoop (tid : String) (span : ℝ) :
    List Barrier → ℝ → List OuterSeg × ℝ
  | [], angle => ([], angle)
  | b :: bs, angle =>
    let a0 := angle
    let a1 := angle + span
    let mid := midAngle a0 a1
    let seg : OuterSeg :=
      { barrierId := b.id, themeId := tid, a0 := a0, a1 := a1, mid := mid,
        baseFlip := shouldFlipAngle mid }
    let rest := outerLoop tid span bs (angle + span)
    (seg :: rest.1, rest.2)

/-- The builder's outer `for (const tid of themeIds)` loop: per theme, an
inner segment spanning `perBarrierSpan × blist.length` from the cursor, and
the barrier loop's outer segments. -/
noncomputable def themeLoop (byTheme : String → List Barrier) (span : ℝ) :
    List String → ℝ → List InnerSeg × List OuterSeg
  | [], _ => ([], [])
  | tid :: rest, angle =>
    let blist := byTheme tid
    let themeSpan := span * blist.length
    let inn : InnerSeg :=
      { themeId := tid, a0 := angle, a1 := angle + themeSpan,
        count := blist.length }
    let out := outerLoop tid span blist angle
    let next := themeLoop byTheme span rest out.2
    (inn :: next.1, out.1 ++ next.2)

/-- The per-theme orientation-override loop (`themeOrientationOverride`):
skip a theme with no segments; when its `baseFlip` flags are not all equal,
record `flippedCount >= segs.length / 2` (JS real division, so an exact tie
resolves to `true`). -/
def overrideEntry (os : List OuterSeg) (tid : String) :
    Option (String × Bool) :=
  let segs := os.filter (fun s => s.themeId == tid)
  if segs.isEmpty then none
  else
    let base := segs.map (·.baseFlip)
    if base.all (· == base.headI) then none
    else
      some (tid,
        decide ((segs.length : ℚ) / 2 ≤ ((base.filter (· == true)).length : ℚ)))

def buildOverrides (themeIds : List String) (os : List OuterSeg) :
    List (String × Bool) :=
  themeIds.filterMap (overrideEntry os)

/-- What the `data` `useMemo` returns (the parts the claims are about). -/
structure RingData where
  themeIds : List String
  innerSegments : List InnerSeg
  outerSegments : List OuterSeg
  totalBarriers : Nat
  overrides : List (String × Bool)

/-- The `data` computation of `PDATFRingExportComponent`. -/
noncomputable def buildData (themes : List Theme) (barriers : List Barrier) :
    RingData :=
  let themeIds := ringThemeIds themes
  let byTheme := groupBarriersByTheme barriers themeIds
  let span := ringPerBarrierSpan barriers
  let segs := themeLoop byTheme span themeIds START_ANGLE
  { themeIds := themeIds, innerSegments := segs.1, outerSegments := segs.2,
    totalBarriers := ringTotalBarriers barriers,
    overrides := buildOverrides themeIds segs.2 }

/-- `data.themeOrientationOverride.get(tid)`: the `Map` as an association
list; the loop visits each theme id once, so first-match lookup is the
`Map`'s lookup. -/
def themeOrientationOverride (data : RingData) (tid : String) : Option Bool :=
  data.overrides.lookup tid

/-- An SVG path command with exact real coordinates (`toFixed` formatting
is not modelled). -/
inductive PathCmd where
  | M (x y : ℝ)
  | L (x y : ℝ)
  | A (rx ry xrot : ℝ) (large sweep : Nat) (x y : ℝ)
  | Z

open Classical in
/-- `ellipticalArcPath(cx, cy, r, a0, a1, stretch)`:
`M start A rx ry 0 large sweep end`, where
`large = (|a1 - a0| % 2π > π)` and `sweep = (a1 - a0 >= 0)`. -/
noncomputable def ellipticalArcPath (cx cy r a0 a1 stretch : ℝ) : List PathCmd :=
  let p0 := ellipsePoint cx cy r a0 stretch
  let p1 := ellipsePoint cx cy r a1 stretch
  let raw := jsMod |a1 - a0| (2 * Real.pi)
  let large : Nat := if Real.pi < raw then 1 else 0
  let sweep : Nat := if 0 ≤ a1 - a0 then 1 else 0
  [PathCmd.M p0.1 p0.2, PathCmd.A r (r * stretch) 0 large sweep p1.1 p1.2]

/-- `.replace(/^M/, "L")` on a path: the leading `M` becomes an `L`. -/
def demoteM : List PathCmd → List PathCmd
  | PathCmd.M x y :: rest => PathCmd.L x y :: rest
  | l => l

/-- `ellipticalWedgePath(cx, cy, r0, r1, a0, a1, stretch)`: outer arc,
radial line to the inner arc's end, inner arc reversed with its `M`
demoted to `L`, close. -/
noncomputable def ellipticalWedgePath (cx cy r0 r1 a0 a1 stretch : ℝ) :
    List PathCmd :=
  let outer := ellipticalArcPath cx cy r1 a0 a1 stretch
  let p2 := ellipsePoint cx cy r0 a1 stretch
  let inner := demoteM (ellipticalArcPath cx cy r0 a1 a0 stretch)
  outer ++ [PathCmd.L p2.1 p2.2] ++ inner ++ [PathCmd.Z]

/-- The `i = 0..steps` sample points of the text-path loops:
`a = start + (end - start) * (i / steps)`. -/
noncomputable def samplePoints (cx cy stretch r s e : ℝ) (steps : Nat) :
    List (ℝ × ℝ) :=
  (List.range (steps + 1)).map fun (i : Nat) =>
    ellipsePoint cx cy r (s + (e - s) * ((i : ℝ) / (steps : ℝ))) stretch

/-- A sampled point list as a path: `M` then `L`s. -/
def polyline : List (ℝ × ℝ) → List PathCmd
  | [] => []
  | p :: rest => PathCmd.M p.1 p.2 :: rest.map (fun q => PathCmd.L q.1 q.2)

/-- `steps = Math.max(10, Math.ceil(|end - start| / (6 * (Math.PI / 180))))`. -/
noncomputable def textPathSteps (s e : ℝ) : Nat :=
  max 10 ⌈|e - s| / (6 * (Real.pi / 180))⌉.toNat

open Classical in
/-- `buildTextPath(a0, a1, r)`: reverse the angles when the midpoint's `y`
exceeds `cy`, then emit the sampled polyline. -/
noncomputable def buildTextPath (cx cy stretch a0 a1 r : ℝ) : List PathCmd :=
  let mid := (a0 + a1) / 2
  let isBottom := (ellipsePoint cx cy r mid stretch).2 > cy
  let s := if isBottom then a1 else a0
  let e := if isBottom then a0 else a1
  polyline (samplePoints cx cy stretch r s e (textPathSteps s e))

open Classical in
/-- `buildTextPathOriented(a0, a1, r, isBottomForced)`: as `buildTextPath`,
except a boolean `isBottomForced` replaces the midpoint test. -/
noncomputable def buildTextPathOriented (cx cy stretch a0 a1 r : ℝ)
    (isBottomForced : Option Bool) : List PathCmd :=
  let mid := (a0 + a1) / 2
  let isBottom :=
    match isBottomForced with
    | some b => b = true
    | none => (ellipsePoint cx cy r mid stretch).2 > cy
  let s := if isBottom then a1 else a0
  let e := if isBottom then a0 else a1
  polyline (samplePoints cx cy stretch r s e (textPathSteps s e))

/-- Sum of consecutive sample-point distances (`Math.hypot`). -/
noncomputable def polyLength : List (ℝ × ℝ) → ℝ
  | p :: q :: rest =>
    Real.sqrt ((q.1 - p.1) ^ 2 + (q.2 - p.2) ^ 2) + polyLength (q :: rest)
  | _ => 0

open Classical in
/-- `approximateTextPathLength(a0, a1, r, padDeg)`: pad the span inward
(preserving the original winding), sample with at least 12 steps, sum the
distances. -/
noncomputable def approximateTextPathLength (cx cy stretch a0 a1 r padDeg : ℝ) :
    ℝ :=
  let pad := padDeg * Real.pi / 180
  let s := if a1 < a0 then a1 else a0
  let e := if a1 < a0 then a0 else a1
  let A0 := if 0 ≤ a1 - a0 then s + pad else e - pad
  let A1 := if 0 ≤ a1 - a0 then e - pad else s + pad
  let steps : Nat := max 12 ⌈|A1 - A0| / (6 * (Real.pi / 180))⌉.toNat
  polyLength (samplePoints cx cy stretch r A0 A1 steps)

/-! ## Ring radii and text padding (second export variant) -/

def innerR0 : ℝ := 300
def innerR1 : ℝ := 560
def outerR0 : ℝ := 620
def outerR1 : ℝ := 1240
def TEXT_PAD_DEG : ℝ := 2
def INNER_TEXT_PAD_DEG : ℝ := 1

/-- `text.trim().split(/\s+/)`: the empty string yields `[""]`, otherwise
the maximal runs of non-whitespace characters. -/
def jsSplitWs (text : String) : List String :=
  let t := text.trim
  if t = "" then [""]
  else (t.split (fun c => c.isWhitespace)).filter (fun w => w ≠ "")

open Classical in
/-- The greedy word-wrap loop of `wrapToLines`, over the remaining words
and the state `(lines, line)`; pushing the line that reaches `maxLines`
breaks out (the pending word is dropped), and the result is sliced to
`maxLines`. -/
noncomputable def wrapLoop (charPx maxWidthPx : ℝ) (maxLines : Nat) :
    List String → List String → String → List String
  | [], lines, line =>
    (if lines.length < maxLines ∧ line ≠ "" then lines ++ [line] else lines).take
      maxLines
  | w :: ws, lines, line =>
    let test := if line = "" then w else line ++ " " ++ w
    if (test.length : ℝ) * charPx ≤ maxWidthPx ∨ line = "" then
      wrapLoop charPx maxWidthPx maxLines ws lines test
    else if (lines ++ [line]).length = maxLines then
      (lines ++ [line]).take maxLines
    else wrapLoop charPx maxWidthPx maxLines ws (lines ++ [line]) w

/-- `wrapToLines(text, maxWidthPx, maxLines, fontPx)` of the second export
variant (`charPx = fontPx * 0.6`). -/
noncomputable def wrapToLines (text : String) (maxWidthPx : ℝ) (maxLines : Nat)
    (fontPx : Nat) : List String :=
  wrapLoop ((fontPx : ℝ) * 0.6) maxWidthPx maxLines (jsSplitWs text) [] ""

/-! ## Inner (theme) label fitting: `innerLabelLayouts` -/

def INNER_FONT_MAX : Nat := 44
def MAX_INNER_LINES : Nat := 3

/-- `baseRadius = innerR0 + 0.55 * (innerR1 - innerR0)`. -/
noncomputable def innerBaseRadius : ℝ := innerR0 + 0.55 * (innerR1 - innerR0)

/-- `clampRadius` with `margin = 22`. -/
noncomputable def innerClampRadius (r : ℝ) : ℝ :=
  min (innerR1 - 22) (max (innerR0 + 22) r)

/-- `arcLength(radius)` of the inner fit: the approximate text-path length
over the segment's span, padded by `INNER_TEXT_PAD_DEG`. -/
noncomputable def innerArcLen (cx cy stretch a0 a1 radius : ℝ) : ℝ :=
  approximateTextPathLength cx cy stretch a0 a1 radius INNER_TEXT_PAD_DEG

/-- One fitted inner-label layout. -/
structure InnerLayout where
  fontSize : Nat
  lines : List String
  radii : List ℝ
  lengths : List ℝ

/-- The loop body of `innerLabelLayouts` at one candidate font: wrap at
`arcLength(baseRadius) * 0.94` into at most 3 lines (an empty wrap becomes
the single raw label line), stack radii around the base radius at
`lineGap = font * (n > 1 ? 1.06 : 1.0)`, clamp each into the ring band. -/
noncomputable def innerCandidate (cx cy stretch a0 a1 : ℝ) (text : String)
    (font : Nat) : InnerLayout :=
  let linesC0 :=
    wrapToLines text (innerArcLen cx cy stretch a0 a1 innerBaseRadius * 0.94)
      MAX_INNER_LINES font
  let linesC := if linesC0.isEmpty then [text] else linesC0
  let n := linesC.length
  let lineGap : ℝ := (font : ℝ) * (if 1 < n then 1.06 else 1.0)
  let radii :=
    ((List.range n).map fun idx =>
        innerBaseRadius + (((n : ℝ) - 1) / 2 - (idx : ℝ)) * lineGap).map
      innerClampRadius
  { fontSize := font, lines := linesC, radii := radii,
    lengths := radii.map (innerArcLen cx cy stretch a0 a1) }

/-- `widthsOk`: each line's approximate width (`length * font * 0.6`) fits
within `0.92` of the arc length at that line's clamped radius
(`radiiClamped[idx] ?? baseRadius`). -/
noncomputable def innerWidthsOk (cx cy stretch a0 a1 : ℝ) (font : Nat)
    (linesC : List String) (radii : List ℝ) : Prop :=
  ∀ i < linesC.length,
    ((linesC.getD i "").length : ℝ) * (font : ℝ) * 0.6 ≤
      innerArcLen cx cy stretch a0 a1 (radii.getD i innerBaseRadius) * 0.92

/-- `spacingOk`: consecutive clamped radii at least `font * 0.6` apart. -/
noncomputable def innerSpacingOk (font : Nat) (radii : List ℝ) : Prop :=
  List.Chain' (fun a b => (font : ℝ) * 0.6 ≤ |b - a|) radii

/-- The acceptance test of one candidate font (`widthsOk && spacingOk`). -/
noncomputable def innerAccept (cx cy stretch a0 a1 : ℝ) (text : String)
    (font : Nat) : Prop :=
  let L := innerCandidate cx cy stretch a0 a1 text font
  innerWidthsOk cx cy stretch a0 a1 font L.lines L.radii ∧
    innerSpacingOk font L.radii

open Classical in
/-- The descending font loop of `innerLabelLayouts`: from the given font
down to 14, remembering the first candidate as the fallback; below 14 the
fallback (or, were it never set, the literal default) is returned. -/
noncomputable def innerFindLayout (cand : Nat → InnerLayout)
    (accept : Nat → Prop) (dflt : InnerLayout) :
    Nat → Option InnerLayout → InnerLayout
  | font, fb =>
    if h : 14 ≤ font then
      let layout := cand font
      let fb2 := some (fb.getD layout)
      if accept font then layout
      else innerFindLayout cand accept dflt (font - 1) fb2
    else fb.getD dflt
termination_by font _ => font
decreasing_by omega

/-- One entry of `innerLabelLayouts`: the search from font 44, the dead
last-resort literal `{16, [labelText], [clamped base radius]}` as default. -/
noncomputable def innerLabelLayout (cx cy stretch a0 a1 : ℝ) (text : String) :
    InnerLayout :=
  innerFindLayout (innerCandidate cx cy stretch a0 a1 text)
    (innerAccept cx cy stretch a0 a1 text)
    { fontSize := 16, lines := [text],
      radii := [innerClampRadius innerBaseRadius],
      lengths := [innerArcLen cx cy stretch a0 a1
        (innerClampRadius innerBaseRadius)] }
    INNER_FONT_MAX none

/-! ## Outer (barrier) label fitting -/

/-- `rLabel = outerR0 + 0.5 * (outerR1 - outerR0)`. -/
noncomputable def outerRLabel : ℝ := outerR0 + 0.5 * (outerR1 - outerR0)

/-- The second export variant's `chord = 4 * rLabel * Math.sin(spanPadded / 2)`
(the first variant uses `2 *`). -/
noncomputable def outerChord (rLabel spanPadded : ℝ) : ℝ :=
  4 * rLabel * Real.sin (spanPadded / 2)

/-- `avail = Math.max(60, chord * 1.4)`. -/
noncomputable def outerAvail (rLabel spanPadded : ℝ) : ℝ :=
  max 60 (outerChord rLabel spanPadded * 1.4)

/-- The available width as the claim words it: the chord
`2 * rLabel * sin(spanPadded / 2)` times the margin factor 1.4, floored at
60 (the first variant's formula). -/
noncomputable def outerAvailClaimed (rLabel spanPadded : ℝ) : ℝ :=
  max 60 (2 * rLabel * Real.sin (spanPadded / 2) * 1.4)

/-- `availHalf = Math.max(8, Math.min(distInner, distOuter) - margin)`. -/
noncomputable def outerAvailHalf : ℝ :=
  max 8 (min (outerRLabel - outerR0) (outerR1 - outerRLabel) - 6)

/-- `lineGap = Math.round(font * 1.03)` (exact rational rounding; JS
`Math.round` rounds half toward `+∞`, as does `round` on `ℚ`). -/
def outerLineGap (font : Nat) : ℤ := round ((font : ℚ) * 1.03)

/-- `widthsOk` of the outer loop: `line.length * (font * 0.55) <= avail * 1.02`. -/
noncomputable def outerWidthsOk (avail : ℝ) (font : Nat)
    (lines : List String) : Prop :=
  ∀ l ∈ lines, (l.length : ℝ) * ((font : ℝ) * 0.55) ≤ avail * 1.02

/-- `radialOk`: half the stacked height `(n - 1) * lineGap + font` within
`availHalf`. -/
noncomputable def outerRadialOk (availHalf : ℝ) (font : Nat)
    (lines : List String) : Prop :=
  (((lines.length : ℝ) - 1) * ((outerLineGap font : ℤ) : ℝ) + (font : ℝ)) / 2 ≤
    availHalf

/-- Both acceptance tests of the outer font loop. -/
noncomputable def outerOk (avail availHalf : ℝ) (font : Nat)
    (lines : List String) : Prop :=
  outerWidthsOk avail font lines ∧ outerRadialOk availHalf font lines

open Classical in
/-- The `while (font >= minFont)` loop of the barrier-label fit: wrap at
the current font into at most 5 lines, stop at the first font passing both
checks, else decrement; on fall-through the loop leaves `font = 11` with
the last wrapped lines. -/
noncomputable def outerFontLoop (name : String) (avail availHalf : ℝ) :
    Nat → List String → Nat × List String
  | font, lines =>
    if h : 12 ≤ font then
      let l := wrapToLines name avail 5 font
      if outerOk avail availHalf font l then (font, l)
      else outerFontLoop name avail availHalf (font - 1) l
    else (font, lines)
termination_by font _ => font
decreasing_by omega

/-- The barrier-label font search: `font = 50`, `lines = []` initially. -/
noncomputable def outerLabelFit (name : String) (avail availHalf : ℝ) :
    Nat × List String :=
  outerFontLoop name avail availHalf 50 []

/-! ## Lemmas about the barrier loop -/

theorem outerLoop_snd (tid : String) (span : ℝ) (bs : List Barrier) (angle : ℝ) :
    (outerLoop tid span bs angle).2 = angle + span * bs.length := by
  induction bs generalizing angle with
  | nil => simp [outerLoop]
  | cons b bs ih =>
    simp only [outerLoop, ih, List.length_cons]
    push_cast
    ring

theorem outerLoop_length (tid : String) (span : ℝ) (bs : List Barrier)
    (angle : ℝ) : (outerLoop tid span bs angle).1.length = bs.length := by
  induction bs generalizing angle with
  | nil => simp [outerLoop]
  | cons b bs ih => simp [outerLoop, ih]

theorem outerLoop_mem (tid : String) (span : ℝ) (bs : List Barrier) (angle : ℝ)
    (seg : OuterSeg) (h : seg ∈ (outerLoop tid span bs angle).1) :
    seg.themeId = tid ∧ seg.a1 = seg.a0 + span ∧
      seg.mid = midAngle seg.a0 seg.a1 ∧ seg.baseFlip = shouldFlipAngle seg.mid := by
  induction bs generalizing angle with
  | nil => simp [outerLoop] at h
  | cons b bs ih =>
    simp only [outerLoop, List.mem_cons] at h
    rcases h with h | h
    · subst h; exact ⟨rfl, rfl, rfl, rfl⟩
    · exact ih (angle + span) h

theorem outerLoop_head? (tid : String) (span : ℝ) (bs : List Barrier)
    (angle : ℝ) (seg : OuterSeg)
    (h : (outerLoop tid span bs angle).1.head? = some seg) : seg.a0 = angle := by
  cases bs with
  | nil => simp [outerLoop] at h
  | cons b bs =>
    simp only [outerLoop, List.head?_cons, Option.some.injEq] at h
    rw [← h]

theorem outerLoop_getLast? (tid : String) (span : ℝ) (bs : List Barrier)
    (angle : ℝ) (seg : OuterSeg)
    (h : (outerLoop tid span bs angle).1.getLast? = some seg) :
    seg.a1 = angle + span * bs.length := by
  induction bs generalizing angle with
  | nil => simp [outerLoop] at h
  | cons b bs ih =>
    cases hbs : bs with
    | nil =>
      subst hbs
      simp only [outerLoop, List.getLast?_singleton, Option.some.injEq] at h
      rw [← h]
      simp
    | cons b' bs' =>
      subst hbs
      rw [show (outerLoop tid span (b :: b' :: bs') angle).1 =
            _ :: (outerLoop tid span (b' :: bs') (angle + span)).1 from rfl] at h
      rcases he : (outerLoop tid span (b' :: bs') (angle + span)).1 with _ | ⟨x, M⟩
      · have := outerLoop_length tid span (b' :: bs') (angle + span)
        rw [he] at this
        simp at this
      · rw [he, List.getLast?_cons_cons] at h
        rw [← he] at h
        have h2 := ih (angle + span) h
        rw [h2]
        simp only [List.length_cons]
        push_cast
        ring

/-- Adjacency of consecutive segments: the next starts where this ends. -/
def segAdj (s t : OuterSeg) : Prop := s.a1 = t.a0

theorem outerLoop_chain (tid : String) (span : ℝ) (bs : List Barrier)
    (angle : ℝ) : List.Chain' segAdj (outerLoop tid span bs angle).1 := by
  induction bs generalizing angle with
  | nil => simp [outerLoop]
  | cons b bs ih =>
    rw [show (outerLoop tid span (b :: bs) angle).1 =
          _ :: (outerLoop tid span bs (angle + span)).1 from rfl]
    refine List.chain'_cons'.2 ⟨?_, ih (angle + span)⟩
    intro seg hseg
    exact (outerLoop_head? tid span bs (angle + span) seg hseg).symm

/-! ## Lemmas about the theme loop -/

theorem themeLoop_inner_mem (byTheme : String → List Barrier) (span : ℝ)
    (tids : List String) (angle : ℝ) (inn : InnerSeg)
    (h : inn ∈ (themeLoop byTheme span tids angle).1) :
    inn.themeId ∈ tids ∧ inn.count = (byTheme inn.themeId).length ∧
      inn.a1 = inn.a0 + span * inn.count := by
  induction tids generalizing angle with
  | nil => simp [themeLoop] at h
  | cons tid rest ih =>
    simp only [themeLoop, List.mem_cons] at h
    rcases h with h | h
    · subst h
      exact ⟨List.mem_cons_self _ _, rfl, rfl⟩
    · obtain ⟨h1, h2, h3⟩ := ih _ h
      exact ⟨List.mem_cons_of_mem _ h1, h2, h3⟩

theorem themeLoop_inner_exists (byTheme : String → List Barrier) (span : ℝ)
    (tids : List String) (angle : ℝ) (tid : String) (h : tid ∈ tids) :
    ∃ inn ∈ (themeLoop byTheme span tids angle).1, inn.themeId = tid := by
  induction tids generalizing angle with
  | nil => simp at h
  | cons t rest ih =>
    rcases List.mem_cons.1 h with h | h
    · exact ⟨_, List.mem_cons_self _ _, h.symm⟩
    · obtain ⟨inn, hmem, hid⟩ :=
        ih ((outerLoop t span (byTheme t) angle).2) h
      exact ⟨inn, List.mem_cons_of_mem _ hmem, hid⟩

theorem themeLoop_outer_mem (byTheme : String → List Barrier) (span : ℝ)
    (tids : List String) (angle : ℝ) (seg : OuterSeg)
    (h : seg ∈ (themeLoop byTheme span tids angle).2) :
    seg.themeId ∈ tids ∧ seg.a1 = seg.a0 + span ∧
      byTheme seg.themeId ≠ [] := by
  induction tids generalizing angle with
  | nil => simp [themeLoop] at h
  | cons tid rest ih =>
    simp only [themeLoop, List.mem_append] at h
    rcases h with h | h
    · obtain ⟨hid, hspan, _, _⟩ := outerLoop_mem tid span (byTheme tid) angle seg h
      refine ⟨hid ▸ List.mem_cons_self _ _, hspan, ?_⟩
      rw [hid]
      intro hnil
      rw [hnil] at h
      simp [outerLoop] at h
    · obtain ⟨h1, h2, h3⟩ := ih _ h
      exact ⟨List.mem_cons_of_mem _ h1, h2, h3⟩

theorem themeLoop_outer_length (byTheme : String → List Barrier) (span : ℝ)
    (tids : List String) (angle : ℝ) :
    (themeLoop byTheme span tids angle).2.length =
      (tids.map fun tid => (byTheme tid).length).sum := by
  induction tids generalizing angle with
  | nil => simp [themeLoop]
  | cons tid rest ih =>
    simp [themeLoop, outerLoop_length, ih]

theorem themeLoop_head? (byTheme : String → List Barrier) (span : ℝ)
    (tids : List String) (angle : ℝ) (seg : OuterSeg)
    (h : (themeLoop byTheme span tids angle).2.head? = some seg) :
    seg.a0 = angle := by
  induction tids generalizing angle with
  | nil => simp [themeLoop] at h
  | cons tid rest ih =>
    rw [show (themeLoop byTheme span (tid :: rest) angle).2 =
          (outerLoop tid span (byTheme tid) angle).1 ++
            (themeLoop byTheme span rest
              (outerLoop tid span (byTheme tid) angle).2).2 from rfl] at h
    cases hb : byTheme tid with
    | nil =>
      rw [hb] at h
      simp only [outerLoop, List.nil_append] at h
      have := ih ((outerLoop tid span [] angle).2) (by
        rw [show (outerLoop tid span [] angle).2 = angle from rfl]
        exact h)
      rw [show (outerLoop tid span [] angle).2 = angle from rfl] at this
      exact this
    | cons b bs =>
      rw [hb] at h
      rw [show (outerLoop tid span (b :: bs) angle).1 =
            _ :: (outerLoop tid span bs (angle + span)).1 from rfl] at h
      simp only [List.cons_append, List.head?_cons, Option.some.injEq] at h
      rw [← h]

theorem themeLoop_chain (byTheme : String → List Barrier) (span : ℝ)
    (tids : List String) (angle : ℝ) :
    List.Chain' segAdj (themeLoop byTheme span tids angle).2 := by
  induction tids generalizing angle with
  | nil => simp [themeLoop]
  | cons tid rest ih =>
    rw [show (themeLoop byTheme span (tid :: rest) angle).2 =
          (outerLoop tid span (byTheme tid) angle).1 ++
            (themeLoop byTheme span rest
              (outerLoop tid span (byTheme tid) angle).2).2 from rfl]
    refine List.chain'_append.2
      ⟨outerLoop_chain tid span (byTheme tid) angle, ih _, ?_⟩
    intro x hx y hy
    have hx1 := outerLoop_getLast? tid span (byTheme tid) angle x hx
    have hy1 := themeLoop_head? byTheme span rest _ y hy
    rw [outerLoop_snd] at hy1
    rw [segAdj, hx1, hy1]

/-- With distinct theme ids, one theme's outer segments are exactly its
barrier loop's output run from some cursor position, and its (unique) inner
segment starts there and ends a theme-span later. -/
theorem themeLoop_per_theme (byTheme : String → List Barrier) (span : ℝ)
    (tids : List String) (angle : ℝ) (tid : String) (hnd : tids.Nodup)
    (htid : tid ∈ tids) :
    ∃ start,
      (themeLoop byTheme span tids angle).2.filter (fun s => s.themeId == tid) =
        (outerLoop tid span (byTheme tid) start).1 ∧
      ∀ inn ∈ (themeLoop byTheme span tids angle).1, inn.themeId = tid →
        inn.a0 = start ∧ inn.a1 = start + span * (byTheme tid).length := by
  induction tids generalizing angle with
  | nil => simp at htid
  | cons t rest ih =>
    have hnd' := List.nodup_cons.1 hnd
    rcases List.mem_cons.1 htid with rfl | hmem
    · refine ⟨angle, ?_, ?_⟩
      · rw [show (themeLoop byTheme span (tid :: rest) angle).2 =
              (outerLoop tid span (byTheme tid) angle).1 ++
                (themeLoop byTheme span rest
                  (outerLoop tid span (byTheme tid) angle).2).2 from rfl,
            List.filter_append]
        have h1 : (outerLoop tid span (byTheme tid) angle).1.filter
            (fun s => s.themeId == tid) =
              (outerLoop tid span (byTheme tid) angle).1 :=
          List.filter_eq_self.2 fun seg hseg => by
            simp [(outerLoop_mem tid span (byTheme tid) angle seg hseg).1]
        have h2 : (themeLoop byTheme span rest
            (outerLoop tid span (byTheme tid) angle).2).2.filter
              (fun s => s.themeId == tid) = [] :=
          List.filter_eq_nil_iff.2 fun seg hseg => by
            have := (themeLoop_outer_mem byTheme span rest _ seg hseg).1
            simp only [beq_iff_eq]
            intro hc
            exact hnd'.1 (hc ▸ this)
        rw [h1, h2, List.append_nil]
      · intro inn hinn hid
        rcases List.mem_cons.1 hinn with rfl | hinn'
        · exact ⟨rfl, rfl⟩
        · exact absurd (hid ▸ (themeLoop_inner_mem byTheme span rest _ inn
            hinn').1) hnd'.1
    · have hne : tid ≠ t := fun hc => hnd'.1 (hc ▸ hmem)
      obtain ⟨start, hfil, hinn⟩ :=
        ih ((outerLoop t span (byTheme t) angle).2) hnd'.2 hmem
      refine ⟨start, ?_, ?_⟩
      · rw [show (themeLoop byTheme span (t :: rest) angle).2 =
              (outerLoop t span (byTheme t) angle).1 ++
                (themeLoop byTheme span rest
                  (outerLoop t span (byTheme t) angle).2).2 from rfl,
            List.filter_append]
        have h1 : (outerLoop t span (byTheme t) angle).1.filter
            (fun s => s.themeId == tid) = [] :=
          List.filter_eq_nil_iff.2 fun seg hseg => by
            have := (outerLoop_mem t span (byTheme t) angle seg hseg).1
            simp only [beq_iff_eq]
            intro hc
            exact hne (hc.symm.trans this)
        rw [h1, hfil, List.nil_append]
      · intro inn hinn' hid
        rcases List.mem_cons.1 hinn' with rfl | hinn''
        · exact absurd hid hne.symm
        · exact hinn inn hinn'' hid

/-- Splitting a pointwise sum of naturals over a list. -/
theorem list_sum_map_add {α : Type} (l : List α) (f g : α → Nat) :
    (l.map fun x => f x + g x).sum = (l.map f).sum + (l.map g).sum := by
  induction l with
  | nil => simp
  | cons x l ih => simp [ih]; omega

/-- Over a duplicate-free list, the indicator of one value sums to its
membership. -/
theorem list_sum_indicator (x : String) (tids : List String)
    (hnd : tids.Nodup) :
    (tids.map fun tid => if x == tid then (1 : Nat) else 0).sum =
      if x ∈ tids then 1 else 0 := by
  induction tids with
  | nil => simp
  | cons t rest ih =>
    have hnd' := List.nodup_cons.1 hnd
    simp only [List.map_cons, List.sum_cons]
    rw [ih hnd'.2]
    by_cases hx : x = t
    · subst hx
      simp [hnd'.1]
    · simp [hx, List.mem_cons]

/-- With distinct theme ids, the per-theme barrier counts sum to the count
of barriers whose theme id occurs in the list. -/
theorem sum_countP_themes (tids : List String) (hnd : tids.Nodup)
    (bs : List Barrier) :
    (tids.map fun tid => (bs.filter (fun b => b.themeId == tid)).length).sum =
      (bs.filter (fun b => decide (b.themeId ∈ tids))).length := by
  induction bs with
  | nil => simp
  | cons b bs ih =>
    have hsplit : ∀ tid : String,
        ((b :: bs).filter (fun x => x.themeId == tid)).length =
          (bs.filter (fun x => x.themeId == tid)).length +
            (if b.themeId == tid then 1 else 0) := by
      intro tid
      by_cases hb : b.themeId = tid <;> simp [List.filter_cons, hb]
    calc (tids.map fun tid =>
            ((b :: bs).filter (fun x => x.themeId == tid)).length).sum
        = (tids.map fun tid =>
            (bs.filter (fun x => x.themeId == tid)).length +
              (if b.themeId == tid then 1 else 0)).sum := by
          congr 1
          exact List.map_congr_left fun tid _ => hsplit tid
      _ = (tids.map fun tid =>
            (bs.filter (fun x => x.themeId == tid)).length).sum +
            (tids.map fun tid => if b.themeId == tid then (1 : Nat) else 0).sum :=
          list_sum_map_add tids _ _
      _ = (bs.filter (fun x => decide (x.themeId ∈ tids))).length +
            (if b.themeId ∈ tids then 1 else 0) := by
          rw [ih, list_sum_indicator b.themeId tids hnd]
      _ = ((b :: bs).filter (fun x => decide (x.themeId ∈ tids))).length := by
          by_cases hb : b.themeId ∈ tids <;> simp [List.filter_cons, hb]

/-! ## Lemmas about angle normalization -/

theorem jsMod360_of_nonneg (x : ℝ) (hx : 0 ≤ x) :
    0 ≤ jsMod x 360 ∧ jsMod x 360 < 360 := by
  have hdiv : (0 : ℝ) ≤ x / 360 := by positivity
  rw [jsMod, jsTrunc, if_pos hdiv]
  constructor
  · have h := Int.floor_le (x / 360)
    nlinarith
  · have h := Int.lt_floor_add_one (x / 360)
    nlinarith

theorem jsMod360_of_neg (x : ℝ) (hx : x < 0) :
    -360 < jsMod x 360 ∧ jsMod x 360 ≤ 0 := by
  have hdiv : ¬ (0 : ℝ) ≤ x / 360 := by
    simp only [not_le]
    exact div_neg_of_neg_of_pos hx (by norm_num)
  rw [jsMod, jsTrunc, if_neg hdiv]
  constructor
  · have h := Int.ceil_lt_add_one (x / 360)
    nlinarith
  · have h := Int.le_ceil (x / 360)
    nlinarith

/-- `normalizeDegrees` always lands in `[0, 360)`. -/
theorem normalizeDegrees_mem (d : ℝ) :
    0 ≤ normalizeDegrees d ∧ normalizeDegrees d < 360 := by
  rw [normalizeDegrees]
  rcases le_or_lt 0 d with hd | hd
  · obtain ⟨h0, h1⟩ := jsMod360_of_nonneg d hd
    exact jsMod360_of_nonneg _ (by linarith)
  · obtain ⟨h0, h1⟩ := jsMod360_of_neg d hd
    exact jsMod360_of_nonneg _ (by linarith)

theorem jsMod360_self (x : ℝ) (h0 : 0 ≤ x) (h1 : x < 360) : jsMod x 360 = x := by
  have hdiv : (0 : ℝ) ≤ x / 360 := by positivity
  rw [jsMod, jsTrunc, if_pos hdiv]
  have : ⌊x / 360⌋ = 0 := by
    rw [Int.floor_eq_zero_iff, Set.mem_Ico]
    exact ⟨hdiv, (div_lt_one (by norm_num : (0:ℝ) < 360)).2 (by linarith)⟩
  rw [this]
  ring

/-- On `[0, 360)` the normalization is the identity. -/
theorem normalizeDegrees_self (x : ℝ) (h0 : 0 ≤ x) (h1 : x < 360) :
    normalizeDegrees x = x := by
  rw [normalizeDegrees, jsMod360_self x h0 h1]
  have hdiv : (0 : ℝ) ≤ (x + 360) / 360 := by positivity
  rw [jsMod, jsTrunc, if_pos hdiv]
  have : ⌊(x + 360) / 360⌋ = 1 := by
    rw [Int.floor_eq_iff]
    constructor
    · push_cast
      rw [le_div_iff₀ (by norm_num : (0:ℝ) < 360)]
      linarith
    · push_cast
      rw [div_lt_iff₀ (by norm_num : (0:ℝ) < 360)]
      linarith
  rw [this]
  push_cast
  ring

/-! ## C5: `shouldFlipAngle` -/

/-- C5: for every angle, `shouldFlipAngle` first normalizes the angle to
degrees in `[0, 360)` and returns true iff the normalized value lies
strictly between 90 and 270; at exactly 90 deg (`pi/2`) and exactly 270 deg
(`3*pi/2`) it returns false. -/
theorem c5_shouldFlipAngle (θ : ℝ) :
    (0 ≤ normalizeDegrees (θ * 180 / Real.pi) ∧
      normalizeDegrees (θ * 180 / Real.pi) < 360) ∧
    (shouldFlipAngle θ = true ↔
      90 < normalizeDegrees (θ * 180 / Real.pi) ∧
        normalizeDegrees (θ * 180 / Real.pi) < 270) ∧
    shouldFlipAngle (Real.pi / 2) = false ∧
    shouldFlipAngle (3 * Real.pi / 2) = false := by
  refine ⟨normalizeDegrees_mem _, ?_, ?_, ?_⟩
  · simp [shouldFlipAngle]
  · have h90 : Real.pi / 2 * 180 / Real.pi = 90 := by
      field_simp
      ring
    rw [shouldFlipAngle]
    simp only [h90, normalizeDegrees_self 90 (by norm_num) (by norm_num)]
    simp only [decide_eq_false_iff_not]
    norm_num
  · have h270 : 3 * Real.pi / 2 * 180 / Real.pi = 270 := by
      field_simp
      ring
    rw [shouldFlipAngle]
    simp only [h270, normalizeDegrees_self 270 (by norm_num) (by norm_num)]
    simp only [decide_eq_false_iff_not]
    norm_num

/-! ## C1: outer segment spans -/

theorem sum_spans (os : List OuterSeg) (span : ℝ)
    (h : ∀ seg ∈ os, seg.a1 - seg.a0 = span) :
    (os.map fun s => s.a1 - s.a0).sum = span * os.length := by
  induction os with
  | nil => simp
  | cons seg os ih =>
    simp only [List.map_cons, List.sum_cons, List.length_cons]
    rw [h seg (List.mem_cons_self _ _), ih fun s hs => h s (List.mem_cons_of_mem _ hs)]
    push_cast
    ring

/-- The outer-segment count: with distinct theme ids, one segment per
barrier whose theme id occurs among them. -/
theorem buildData_outer_length (themes : List Theme) (barriers : List Barrier)
    (hnd : (ringThemeIds themes).Nodup) :
    (buildData themes barriers).outerSegments.length =
      (barriers.filter
        (fun b => decide (b.themeId ∈ ringThemeIds themes))).length := by
  show (themeLoop (groupBarriersByTheme barriers (ringThemeIds themes))
      (ringPerBarrierSpan barriers) (ringThemeIds themes) START_ANGLE).2.length = _
  rw [themeLoop_outer_length]
  rw [List.map_congr_left (fun tid htid => by
    show (groupBarriersByTheme barriers (ringThemeIds themes) tid).length =
      (barriers.filter (fun b => b.themeId == tid)).length
    rw [groupBarriersByTheme, if_pos htid])]
  exact sum_countP_themes _ hnd barriers

/-- C1 (amended): for every non-empty barrier list with distinct theme ids
in which every barrier's `themeId` occurs among the theme ids, every outer
segment spans `2π / totalBarriers` in the positive (clockwise) direction,
consecutive outer segments are contiguous with the first starting at
`-π/2`, and the spans sum to exactly `2π` (hence within `1e-6`). -/
theorem c1_outer_spans (themes : List Theme) (barriers : List Barrier)
    (hne : barriers ≠ []) (hnd : (ringThemeIds themes).Nodup)
    (hcov : ∀ b ∈ barriers, b.themeId ∈ ringThemeIds themes) :
    (∀ seg ∈ (buildData themes barriers).outerSegments,
      seg.a1 - seg.a0 = 2 * Real.pi / barriers.length) ∧
    List.Chain' segAdj (buildData themes barriers).outerSegments ∧
    (∀ seg, (buildData themes barriers).outerSegments.head? = some seg →
      seg.a0 = -(Real.pi / 2)) ∧
    ((buildData themes barriers).outerSegments.map
        fun s => s.a1 - s.a0).sum = 2 * Real.pi ∧
    |((buildData themes barriers).outerSegments.map
        fun s => s.a1 - s.a0).sum - 2 * Real.pi| ≤ 1e-6 := by
  have hlen : barriers.length ≠ 0 := fun hc => hne (List.length_eq_zero.1 hc)
  have hspan : ringPerBarrierSpan barriers = 2 * Real.pi / barriers.length := by
    rw [ringPerBarrierSpan, ringTotalBarriers, if_neg hlen, CLOCKWISE, if_pos rfl]
    ring
  have hos : (buildData themes barriers).outerSegments =
      (themeLoop (groupBarriersByTheme barriers (ringThemeIds themes))
        (ringPerBarrierSpan barriers) (ringThemeIds themes) START_ANGLE).2 := rfl
  have hmem : ∀ seg ∈ (buildData themes barriers).outerSegments,
      seg.a1 - seg.a0 = 2 * Real.pi / barriers.length := by
    intro seg hseg
    rw [hos] at hseg
    have := (themeLoop_outer_mem _ _ _ _ seg hseg).2.1
    rw [this, hspan]
    ring
  refine ⟨hmem, ?_, ?_, ?_, ?_⟩
  · rw [hos]
    exact themeLoop_chain _ _ _ _
  · intro seg hseg
    rw [hos] at hseg
    have := themeLoop_head? _ _ _ _ seg hseg
    rw [this, START_ANGLE]
  · have hcnt : (buildData themes barriers).outerSegments.length =
        barriers.length := by
      rw [buildData_outer_length themes barriers hnd]
      congr 1
      exact List.filter_eq_self.2 fun b hb => by simp [hcov b hb]
    rw [sum_spans _ _ hmem, hcnt]
    field_simp
  · have hcnt : (buildData themes barriers).outerSegments.length =
        barriers.length := by
      rw [buildData_outer_length themes barriers hnd]
      congr 1
      exact List.filter_eq_self.2 fun b hb => by simp [hcov b hb]
    rw [sum_spans _ _ hmem, hcnt]
    have : 2 * Real.pi / (barriers.length : ℝ) * (barriers.length : ℝ) =
        2 * Real.pi := by
      field_simp
    rw [this]
    simp only [sub_self, abs_zero]
    norm_num

/-- Witness input for `c1_outer_spans`: one theme, two matching barriers. -/
def wThemes : List Theme := [⟨"t1", some 1⟩]

def wBarriers : List Barrier := [⟨"b1", "B1", "t1"⟩, ⟨"b2", "B2", "t1"⟩]

theorem wThemeIds : ringThemeIds wThemes = ["t1"] := by
  simp [ringThemeIds, orderedThemes, wThemes]

theorem c1_witness :
    (∀ seg ∈ (buildData wThemes wBarriers).outerSegments,
      seg.a1 - seg.a0 = 2 * Real.pi / wBarriers.length) ∧
    ((buildData wThemes wBarriers).outerSegments.map
        fun s => s.a1 - s.a0).sum = 2 * Real.pi := by
  have h := c1_outer_spans wThemes wBarriers (by simp [wBarriers])
    (by rw [wThemeIds]; simp)
    (by intro b hb; rw [wThemeIds]; fin_cases hb <;> simp [wBarriers])
  exact ⟨h.1, h.2.2.2.1⟩

/-- The concrete counterexample input for C1: two barriers, one of them
referencing no existing theme. -/
def cexThemes : List Theme := [⟨"t1", some 1⟩]

def cexBarriers : List Barrier := [⟨"b1", "B1", "t1"⟩, ⟨"b2", "B2", "zz"⟩]

/-- C1 counterexample: a non-empty barrier list (containing an orphan
barrier) whose outer-segment spans sum to `π`, not `2π`, missing the
claimed `1e-6` tolerance. -/
theorem c1_counterexample :
    cexBarriers ≠ [] ∧
    ¬ |((buildData cexThemes cexBarriers).outerSegments.map
          fun s => s.a1 - s.a0).sum - 2 * Real.pi| ≤ 1e-6 := by
  refine ⟨by simp [cexBarriers], ?_⟩
  have hids : ringThemeIds cexThemes = ["t1"] := by
    simp [ringThemeIds, orderedThemes, cexThemes]
  have hby : groupBarriersByTheme cexBarriers ["t1"] "t1" =
      [⟨"b1", "B1", "t1"⟩] := by
    simp [groupBarriersByTheme, cexBarriers]
  have hspan : ringPerBarrierSpan cexBarriers = Real.pi := by
    rw [ringPerBarrierSpan, ringTotalBarriers]
    norm_num [cexBarriers, CLOCKWISE]
  have hos : (buildData cexThemes cexBarriers).outerSegments =
      (themeLoop (groupBarriersByTheme cexBarriers (ringThemeIds cexThemes))
        (ringPerBarrierSpan cexBarriers) (ringThemeIds cexThemes) START_ANGLE).2 :=
    rfl
  rw [hos, hids, themeLoop]
  simp only [hby, outerLoop, themeLoop, List.append_nil, List.map_cons,
    List.map_nil, List.sum_cons, List.sum_nil]
  rw [hspan]
  have hpi := Real.pi_gt_three
  rw [abs_le]
  intro hcon
  obtain ⟨h1, h2⟩ := hcon
  norm_num at h1
  linarith

theorem cexThemeIds : ringThemeIds cexThemes = ["t1"] := by
  simp [ringThemeIds, orderedThemes, cexThemes]

/-! ## C9: orphan barriers -/

/-- C9: a barrier whose `themeId` matches no theme id yields no outer
segment yet still counts in the angular divisor, so the emitted spans sum
to `2π × matched/total`, strictly less than `2π`. -/
theorem c9_orphan_barriers (themes : List Theme) (barriers : List Barrier)
    (hnd : (ringThemeIds themes).Nodup) (b0 : Barrier) (hb0 : b0 ∈ barriers)
    (horph : b0.themeId ∉ ringThemeIds themes) :
    (∀ seg ∈ (buildData themes barriers).outerSegments,
      seg.themeId ∈ ringThemeIds themes) ∧
    (buildData themes barriers).outerSegments.length =
      (barriers.filter
        (fun b => decide (b.themeId ∈ ringThemeIds themes))).length ∧
    ((buildData themes barriers).outerSegments.map
        fun s => s.a1 - s.a0).sum =
      2 * Real.pi *
        ((barriers.filter
          (fun b => decide (b.themeId ∈ ringThemeIds themes))).length : ℝ) /
        (barriers.length : ℝ) ∧
    ((buildData themes barriers).outerSegments.map
        fun s => s.a1 - s.a0).sum < 2 * Real.pi := by
  have hlen : barriers.length ≠ 0 := by
    intro hc
    rw [List.length_eq_zero] at hc
    subst hc
    simp at hb0
  have hspan : ringPerBarrierSpan barriers = 2 * Real.pi / barriers.length := by
    rw [ringPerBarrierSpan, ringTotalBarriers, if_neg hlen, CLOCKWISE, if_pos rfl]
    ring
  have hos : (buildData themes barriers).outerSegments =
      (themeLoop (groupBarriersByTheme barriers (ringThemeIds themes))
        (ringPerBarrierSpan barriers) (ringThemeIds themes) START_ANGLE).2 := rfl
  have hmemid : ∀ seg ∈ (buildData themes barriers).outerSegments,
      seg.themeId ∈ ringThemeIds themes := by
    intro seg hseg
    rw [hos] at hseg
    exact (themeLoop_outer_mem _ _ _ _ seg hseg).1
  have hmem : ∀ seg ∈ (buildData themes barriers).outerSegments,
      seg.a1 - seg.a0 = 2 * Real.pi / barriers.length := by
    intro seg hseg
    rw [hos] at hseg
    have := (themeLoop_outer_mem _ _ _ _ seg hseg).2.1
    rw [this, hspan]
    ring
  have hcnt := buildData_outer_length themes barriers hnd
  have hmatched : ((barriers.filter
      (fun b => decide (b.themeId ∈ ringThemeIds themes))).length : ℝ) <
        (barriers.length : ℝ) := by
    have hlt : (barriers.filter
        (fun b => decide (b.themeId ∈ ringThemeIds themes))).length <
          barriers.length := by
      rcases lt_or_eq_of_le (List.length_filter_le _ barriers) with h | h
      · exact h
      · exfalso
        have := (List.filter_length_eq_length.1 h) b0 hb0
        simp only [decide_eq_true_iff] at this
        exact horph this
    exact_mod_cast hlt
  have hsum : ((buildData themes barriers).outerSegments.map
      fun s => s.a1 - s.a0).sum =
        2 * Real.pi *
          ((barriers.filter
            (fun b => decide (b.themeId ∈ ringThemeIds themes))).length : ℝ) /
          (barriers.length : ℝ) := by
    rw [sum_spans _ _ hmem, hcnt]
    ring
  refine ⟨hmemid, hcnt, hsum, ?_⟩
  rw [hsum]
  rw [div_lt_iff₀ (by positivity)]
  have hpi := Real.pi_pos
  have hnn : (0 : ℝ) ≤ ((barriers.filter
      (fun b => decide (b.themeId ∈ ringThemeIds themes))).length : ℝ) := by
    positivity
  nlinarith [hmatched, hnn]

theorem c9_witness :
    ((buildData cexThemes cexBarriers).outerSegments.map
        fun s => s.a1 - s.a0).sum < 2 * Real.pi := by
  have h := c9_orphan_barriers cexThemes cexBarriers
    (by rw [cexThemeIds]; simp) ⟨"b2", "B2", "zz"⟩
    (by simp [cexBarriers]) (by rw [cexThemeIds]; simp)
  exact h.2.2.2

/-! ## C2: inner segments tile their theme spans -/

/-- C2: each theme's inner segment spans exactly `perBarrierSpan × its
barrier count`, equal to the sum of its barriers' outer spans; it starts at
its first barrier's start angle, ends at its last barrier's end angle, and
the barrier spans tile it contiguously. -/
theorem c2_inner_tiling (themes : List Theme) (barriers : List Barrier)
    (tid : String) (hnd : (ringThemeIds themes).Nodup)
    (htid : tid ∈ ringThemeIds themes) :
    (∃ inn ∈ (buildData themes barriers).innerSegments, inn.themeId = tid) ∧
    List.Chain' segAdj ((buildData themes barriers).outerSegments.filter
      (fun s => s.themeId == tid)) ∧
    ∀ inn ∈ (buildData themes barriers).innerSegments, inn.themeId = tid →
      inn.a1 - inn.a0 = ringPerBarrierSpan barriers *
        ((barriers.filter (fun b => b.themeId == tid)).length : ℝ) ∧
      (((buildData themes barriers).outerSegments.filter
          (fun s => s.themeId == tid)).map fun s => s.a1 - s.a0).sum =
        inn.a1 - inn.a0 ∧
      (∀ seg, ((buildData themes barriers).outerSegments.filter
          (fun s => s.themeId == tid)).head? = some seg → seg.a0 = inn.a0) ∧
      (∀ seg, ((buildData themes barriers).outerSegments.filter
          (fun s => s.themeId == tid)).getLast? = some seg → seg.a1 = inn.a1) := by
  have hby : groupBarriersByTheme barriers (ringThemeIds themes) tid =
      barriers.filter (fun b => b.themeId == tid) := by
    rw [groupBarriersByTheme, if_pos htid]
  have hos : (buildData themes barriers).outerSegments =
      (themeLoop (groupBarriersByTheme barriers (ringThemeIds themes))
        (ringPerBarrierSpan barriers) (ringThemeIds themes) START_ANGLE).2 := rfl
  have hin : (buildData themes barriers).innerSegments =
      (themeLoop (groupBarriersByTheme barriers (ringThemeIds themes))
        (ringPerBarrierSpan barriers) (ringThemeIds themes) START_ANGLE).1 := rfl
  obtain ⟨start, hfil, hinn⟩ := themeLoop_per_theme
    (groupBarriersByTheme barriers (ringThemeIds themes))
    (ringPerBarrierSpan barriers) (ringThemeIds themes) START_ANGLE tid hnd htid
  refine ⟨?_, ?_, ?_⟩
  · rw [hin]
    exact themeLoop_inner_exists _ _ _ _ tid htid
  · rw [hos, hfil]
    exact outerLoop_chain _ _ _ _
  · intro inn hmem hid
    rw [hin] at hmem
    obtain ⟨ha0, ha1⟩ := hinn inn hmem hid
    have hspan : inn.a1 - inn.a0 = ringPerBarrierSpan barriers *
        ((barriers.filter (fun b => b.themeId == tid)).length : ℝ) := by
      rw [ha0, ha1, hby]
      ring
    refine ⟨hspan, ?_, ?_, ?_⟩
    · rw [hos, hfil]
      have hall : ∀ seg ∈ (outerLoop tid (ringPerBarrierSpan barriers)
          (groupBarriersByTheme barriers (ringThemeIds themes) tid) start).1,
            seg.a1 - seg.a0 = ringPerBarrierSpan barriers := by
        intro seg hseg
        have := (outerLoop_mem _ _ _ _ seg hseg).2.1
        rw [this]
        ring
      rw [sum_spans _ _ hall, outerLoop_length, hspan, hby]
    · intro seg hseg
      rw [hos, hfil] at hseg
      rw [outerLoop_head? _ _ _ _ seg hseg, ha0]
    · intro seg hseg
      rw [hos, hfil] at hseg
      rw [outerLoop_getLast? _ _ _ _ seg hseg, ha1]

theorem c2_witness :
    (∃ inn ∈ (buildData wThemes wBarriers).innerSegments, inn.themeId = "t1") ∧
      List.Chain' segAdj ((buildData wThemes wBarriers).outerSegments.filter
        (fun s => s.themeId == "t1")) := by
  have h := c2_inner_tiling wThemes wBarriers "t1"
    (by rw [wThemeIds]; simp) (by rw [wThemeIds]; simp)
  exact ⟨h.1, h.2.1⟩

/-! ## C7: zero-barrier themes and the empty-dataset divisor -/

/-- C7: a theme with no matching barrier gets an inner segment of span 0
and no outer segment, and the divisor of the angular span is floored at 1
on the empty barrier list. -/
theorem c7_zero_barrier_theme (themes : List Theme) (barriers : List Barrier)
    (tid : String) (htid : tid ∈ ringThemeIds themes)
    (hzero : barriers.filter (fun b => b.themeId == tid) = []) :
    (∃ inn ∈ (buildData themes barriers).innerSegments, inn.themeId = tid) ∧
    (∀ inn ∈ (buildData themes barriers).innerSegments, inn.themeId = tid →
      inn.a0 = inn.a1) ∧
    (∀ seg ∈ (buildData themes barriers).outerSegments, seg.themeId ≠ tid) ∧
    ringTotalBarriers [] = 1 := by
  have hby : groupBarriersByTheme barriers (ringThemeIds themes) tid = [] := by
    rw [groupBarriersByTheme, if_pos htid, hzero]
  have hos : (buildData themes barriers).outerSegments =
      (themeLoop (groupBarriersByTheme barriers (ringThemeIds themes))
        (ringPerBarrierSpan barriers) (ringThemeIds themes) START_ANGLE).2 := rfl
  have hin : (buildData themes barriers).innerSegments =
      (themeLoop (groupBarriersByTheme barriers (ringThemeIds themes))
        (ringPerBarrierSpan barriers) (ringThemeIds themes) START_ANGLE).1 := rfl
  refine ⟨?_, ?_, ?_, rfl⟩
  · rw [hin]
    exact themeLoop_inner_exists _ _ _ _ tid htid
  · intro inn hmem hid
    rw [hin] at hmem
    obtain ⟨_, hcount, ha1⟩ := themeLoop_inner_mem _ _ _ _ inn hmem
    rw [hid, hby] at hcount
    simp only [List.length_nil] at hcount
    rw [ha1, hcount]
    simp
  · intro seg hseg hid
    rw [hos] at hseg
    have := (themeLoop_outer_mem _ _ _ _ seg hseg).2.2
    rw [hid, hby] at this
    exact this rfl

theorem c7_witness :
    (∃ inn ∈ (buildData cexThemes []).innerSegments, inn.themeId = "t1") ∧
    ringTotalBarriers [] = 1 := by
  have h := c7_zero_barrier_theme cexThemes [] "t1"
    (by rw [cexThemeIds]; simp) (by simp)
  exact ⟨h.1, h.2.2.2⟩

/-! ## C3: per-theme orientation override -/

theorem overrideEntry_fst (os : List OuterSeg) (tid : String)
    (v : String × Bool) (h : overrideEntry os tid = some v) : v.1 = tid := by
  rw [overrideEntry] at h
  split at h
  · simp at h
  · dsimp only at h
    split at h
    · simp at h
    · simp only [Option.some.injEq] at h
      rw [← h]

theorem buildOverrides_keys (tids : List String) (os : List OuterSeg)
    (p : String × Bool) (hp : p ∈ buildOverrides tids os) : p.1 ∈ tids := by
  induction tids with
  | nil => simp [buildOverrides] at hp
  | cons t rest ih =>
    rw [buildOverrides, List.filterMap_cons] at hp
    rcases hmatch : overrideEntry os t with _ | v
    · rw [hmatch] at hp
      exact List.mem_cons_of_mem _ (ih hp)
    · rw [hmatch] at hp
      rcases List.mem_cons.1 hp with rfl | hp'
      · rw [overrideEntry_fst os t p hmatch]
        exact List.mem_cons_self _ _
      · exact List.mem_cons_of_mem _ (ih hp')

theorem lookup_none_of_not_mem (l : List (String × Bool)) (tid : String)
    (h : ∀ p ∈ l, p.1 ≠ tid) : l.lookup tid = none := by
  induction l with
  | nil => rfl
  | cons p rest ih =>
    rw [List.lookup_cons]
    have hne : (tid == p.1) = false := by
      simp only [beq_eq_false_iff_ne, ne_eq]
      intro hc
      exact h p (List.mem_cons_self _ _) hc.symm
    rw [hne]
    exact ih fun q hq => h q (List.mem_cons_of_mem _ hq)

/-- The `Map` lookup of the override loop, characterized per theme id. -/
theorem buildOverrides_lookup (tids : List String) (os : List OuterSeg)
    (tid : String) (hnd : tids.Nodup) (htid : tid ∈ tids) :
    (buildOverrides tids os).lookup tid =
      (overrideEntry os tid).map (·.2) := by
  induction tids with
  | nil => simp at htid
  | cons t rest ih =>
    have hnd' := List.nodup_cons.1 hnd
    rw [buildOverrides, List.filterMap_cons]
    rcases List.mem_cons.1 htid with rfl | hmem
    · rcases hmatch : overrideEntry os tid with _ | v
      · show (buildOverrides rest os).lookup tid =
          Option.map (fun x => x.2) (none : Option (String × Bool))
        simp only [Option.map_none']
        refine lookup_none_of_not_mem _ _ fun p hp => ?_
        intro hc
        exact hnd'.1 (hc ▸ buildOverrides_keys rest os p hp)
      · show List.lookup tid (v :: buildOverrides rest os) =
          Option.map (fun x => x.2) (some v)
        rw [List.lookup_cons]
        have hv1 := overrideEntry_fst os tid v hmatch
        have hbeq : (tid == v.1) = true := by
          rw [hv1]
          simp
        rw [hbeq]
        rfl
    · have hne : tid ≠ t := fun hc => hnd'.1 (hc ▸ hmem)
      rcases hmatch : overrideEntry os t with _ | v
      · show (buildOverrides rest os).lookup tid = _
        exact ih hnd'.2 hmem
      · show List.lookup tid (v :: buildOverrides rest os) = _
        rw [List.lookup_cons]
        have hv1 := overrideEntry_fst os t v hmatch
        have hbeq : (tid == v.1) = false := by
          rw [hv1]
          simp only [beq_eq_false_iff_ne, ne_eq]
          exact hne
        rw [hbeq]
        exact ih hnd'.2 hmem

/-- C3: a theme whose segments' `baseFlip` flags are not all equal is
mapped to the majority flip (an exact half tie giving `true`, since the
code tests `flippedCount >= segs.length / 2`); a theme with all-equal flags
gets no entry.  In particular the override loop on flags
`[true, true, false, true]` records `true`. -/
theorem c3_orientation_override (themes : List Theme) (barriers : List Barrier)
    (tid : String) (hnd : (ringThemeIds themes).Nodup)
    (htid : tid ∈ ringThemeIds themes) :
    ((((buildData themes barriers).outerSegments.filter
          (fun s => s.themeId == tid)).map (·.baseFlip)).all
        (· == (((buildData themes barriers).outerSegments.filter
          (fun s => s.themeId == tid)).map (·.baseFlip)).headI) = false →
      themeOrientationOverride (buildData themes barriers) tid =
        some (decide
          (((((buildData themes barriers).outerSegments.filter
              (fun s => s.themeId == tid)).map (·.baseFlip)).length : ℚ) / 2 ≤
            (((((buildData themes barriers).outerSegments.filter
              (fun s => s.themeId == tid)).map (·.baseFlip)).filter
                (· == true)).length : ℚ)))) ∧
    ((((buildData themes barriers).outerSegments.filter
          (fun s => s.themeId == tid)).map (·.baseFlip)).all
        (· == (((buildData themes barriers).outerSegments.filter
          (fun s => s.themeId == tid)).map (·.baseFlip)).headI) = true →
      themeOrientationOverride (buildData themes barriers) tid = none) ∧
    buildOverrides ["t"]
      [⟨"b", "t", 0, 0, 0, true⟩, ⟨"b", "t", 0, 0, 0, true⟩,
        ⟨"b", "t", 0, 0, 0, false⟩, ⟨"b", "t", 0, 0, 0, true⟩] =
      [("t", true)] := by
  have hlookup := buildOverrides_lookup (ringThemeIds themes)
    (buildData themes barriers).outerSegments tid hnd htid
  have hover : themeOrientationOverride (buildData themes barriers) tid =
      (buildOverrides (ringThemeIds themes)
        (buildData themes barriers).outerSegments).lookup tid := rfl
  refine ⟨?_, ?_, ?_⟩
  case refine_3 =>
    show List.filterMap _ ["t"] = _
    rw [List.filterMap_cons, overrideEntry]
    norm_num
  · intro hneq
    rw [hover, hlookup, overrideEntry]
    have hne : ¬ ((buildData themes barriers).outerSegments.filter
        (fun s => s.themeId == tid)).isEmpty = true := by
      intro hc
      rw [List.isEmpty_iff] at hc
      rw [hc] at hneq
      simp at hneq
    simp only [hne, hneq]
    simp [List.length_map]
  · intro heq
    rw [hover, hlookup, overrideEntry]
    by_cases h1 : ((buildData themes barriers).outerSegments.filter
        (fun s => s.themeId == tid)).isEmpty
    · simp [h1]
    · simp [h1, heq]

theorem c3_witness :
    buildOverrides ["t"]
      [⟨"b", "t", 0, 0, 0, true⟩, ⟨"b", "t", 0, 0, 0, true⟩,
        ⟨"b", "t", 0, 0, 0, false⟩, ⟨"b", "t", 0, 0, 0, true⟩] =
      [("t", true)] :=
  (c3_orientation_override wThemes wBarriers "t1"
    (by rw [wThemeIds]; simp) (by rw [wThemeIds]; simp)).2.2

/-! ## C8: the text-path router -/

theorem polyline_length (pts : List (ℝ × ℝ)) :
    (polyline pts).length = pts.length := by
  cases pts <;> simp [polyline]

theorem polyline_tail_L (pts : List (ℝ × ℝ)) :
    ∀ cmd ∈ (polyline pts).tail, ∃ x y, cmd = PathCmd.L x y := by
  cases pts with
  | nil => simp [polyline]
  | cons p rest =>
    intro cmd hcmd
    simp only [polyline, List.tail_cons, List.mem_map] at hcmd
    obtain ⟨q, _, hq⟩ := hcmd
    exact ⟨q.1, q.2, hq.symm⟩

theorem polyline_head? (pts : List (ℝ × ℝ)) (p : ℝ × ℝ)
    (h : pts.head? = some p) :
    (polyline pts).head? = some (PathCmd.M p.1 p.2) := by
  cases pts with
  | nil => simp at h
  | cons q rest =>
    simp only [List.head?_cons, Option.some.injEq] at h
    subst h
    rfl

theorem samplePoints_length (cx cy stretch r s e : ℝ) (steps : Nat) :
    (samplePoints cx cy stretch r s e steps).length = steps + 1 := by
  simp [samplePoints]

theorem samplePoints_head? (cx cy stretch r s e : ℝ) (steps : Nat) :
    (samplePoints cx cy stretch r s e steps).head? =
      some (ellipsePoint cx cy r s stretch) := by
  rw [samplePoints, List.range_succ_eq_map]
  simp

theorem samplePoints_getLast? (cx cy stretch r s e : ℝ) (steps : Nat)
    (hsteps : steps ≠ 0) :
    (samplePoints cx cy stretch r s e steps).getLast? =
      some (ellipsePoint cx cy r e stretch) := by
  rw [samplePoints, List.range_succ, List.map_append, List.getLast?_append]
  have hdiv : ((steps : ℝ) / (steps : ℝ)) = 1 :=
    div_self (by exact_mod_cast hsteps)
  simp [hdiv]

/-- C8: `buildTextPath` reverses the angle order exactly when the arc
midpoint's `y` exceeds the center's `y` (`buildTextPathOriented` with no
forced flag agreeing with it), samples `max(10, ceil(span / 6 deg))` line
segments, and emits a polyline (`M` then `L`s, never an arc command). -/
theorem c8_text_path (cx cy stretch a0 a1 r : ℝ) :
    ((ellipsePoint cx cy r ((a0 + a1) / 2) stretch).2 > cy →
      buildTextPath cx cy stretch a0 a1 r =
        polyline (samplePoints cx cy stretch r a1 a0 (textPathSteps a1 a0))) ∧
    (¬ (ellipsePoint cx cy r ((a0 + a1) / 2) stretch).2 > cy →
      buildTextPath cx cy stretch a0 a1 r =
        polyline (samplePoints cx cy stretch r a0 a1 (textPathSteps a0 a1))) ∧
    buildTextPathOriented cx cy stretch a0 a1 r none =
      buildTextPath cx cy stretch a0 a1 r ∧
    (buildTextPath cx cy stretch a0 a1 r).length =
      max 10 ⌈|a1 - a0| / (6 * (Real.pi / 180))⌉.toNat + 1 ∧
    (∃ x y, (buildTextPath cx cy stretch a0 a1 r).head? =
      some (PathCmd.M x y)) ∧
    (∀ cmd ∈ (buildTextPath cx cy stretch a0 a1 r).tail,
      ∃ x y, cmd = PathCmd.L x y) := by
  by_cases hbot : (ellipsePoint cx cy r ((a0 + a1) / 2) stretch).2 > cy
  · have heq : buildTextPath cx cy stretch a0 a1 r =
        polyline (samplePoints cx cy stretch r a1 a0 (textPathSteps a1 a0)) := by
      rw [buildTextPath]
      rw [if_pos hbot, if_pos hbot]
    refine ⟨fun _ => heq, fun hc => absurd hbot hc, ?_, ?_, ?_, ?_⟩
    · rw [buildTextPathOriented, buildTextPath]
    · rw [heq, polyline_length, samplePoints_length, textPathSteps,
        abs_sub_comm]
    · rw [heq]
      exact ⟨_, _, polyline_head? _ _ (samplePoints_head? cx cy stretch r a1 a0
        (textPathSteps a1 a0))⟩
    · rw [heq]
      exact polyline_tail_L _
  · have heq : buildTextPath cx cy stretch a0 a1 r =
        polyline (samplePoints cx cy stretch r a0 a1 (textPathSteps a0 a1)) := by
      rw [buildTextPath]
      rw [if_neg hbot, if_neg hbot]
    refine ⟨fun hc => absurd hc hbot, fun _ => heq, ?_, ?_, ?_, ?_⟩
    · rw [buildTextPathOriented, buildTextPath]
    · rw [heq, polyline_length, samplePoints_length, textPathSteps,
        abs_sub_comm]
    · rw [heq]
      exact ⟨_, _, polyline_head? _ _ (samplePoints_head? cx cy stretch r a0 a1
        (textPathSteps a0 a1))⟩
    · rw [heq]
      exact polyline_tail_L _

/-! ## C10: arcs spanning a full multiple of the circle degenerate -/

theorem ellipsePoint_add_int_mul_two_pi (cx cy r a stretch : ℝ) (k : ℤ) :
    ellipsePoint cx cy r (a + k * (2 * Real.pi)) stretch =
      ellipsePoint cx cy r a stretch := by
  simp [ellipsePoint, Real.cos_add_int_mul_two_pi, Real.sin_add_int_mul_two_pi]

theorem jsMod_nat_mul (n : Nat) (c : ℝ) (hc : 0 < c) :
    jsMod ((n : ℝ) * c) c = 0 := by
  have hdiv : (n : ℝ) * c / c = (n : ℝ) := by
    field_simp
  rw [jsMod, hdiv, jsTrunc, if_pos (by positivity), Int.floor_natCast]
  push_cast
  ring

theorem jsMod_int_mul_abs (k : ℤ) (c : ℝ) (hc : 0 < c) :
    jsMod |(k : ℝ) * c| c = 0 := by
  have habs : |(k : ℝ) * c| = ((k.natAbs : ℕ) : ℝ) * c := by
    rw [abs_mul, abs_of_pos hc, Int.cast_natAbs, Int.cast_abs]
  rw [habs]
  exact jsMod_nat_mul k.natAbs c hc

/-- An arc whose span is an exact integer multiple of `2π` has coinciding
endpoints and large-arc flag 0. -/
theorem ellipticalArcPath_full_circle (cx cy r a0 stretch : ℝ) (k : ℤ) :
    ellipticalArcPath cx cy r a0 (a0 + k * (2 * Real.pi)) stretch =
      [PathCmd.M (ellipsePoint cx cy r a0 stretch).1
        (ellipsePoint cx cy r a0 stretch).2,
       PathCmd.A r (r * stretch) 0 0
         (if 0 ≤ (k : ℝ) * (2 * Real.pi) then 1 else 0)
         (ellipsePoint cx cy r a0 stretch).1
         (ellipsePoint cx cy r a0 stretch).2] := by
  rw [ellipticalArcPath]
  have hdelta : a0 + (k : ℝ) * (2 * Real.pi) - a0 = (k : ℝ) * (2 * Real.pi) := by
    ring
  have hraw : jsMod |(k : ℝ) * (2 * Real.pi)| (2 * Real.pi) = 0 :=
    jsMod_int_mul_abs k _ (by positivity)
  simp only [hdelta, hraw, ellipsePoint_add_int_mul_two_pi]
  rw [if_neg (not_lt.2 (le_of_lt Real.pi_pos))]

/-- C10: for every span that is an exact multiple of `2π` the arc command
degenerates (equal endpoints, large-arc flag 0); in particular a dataset
with a single barrier produces one outer segment spanning the full circle,
whose wedge path is the corresponding degenerate closed path rather than a
full annular sector. -/
theorem c10_full_circle_degenerates (cx cy r r0 r1 a0 stretch : ℝ) (k : ℤ)
    (themes : List Theme) (b : Barrier)
    (hmem : b.themeId ∈ ringThemeIds themes)
    (hnd : (ringThemeIds themes).Nodup) :
    (ellipticalArcPath cx cy r a0 (a0 + k * (2 * Real.pi)) stretch =
      [PathCmd.M (ellipsePoint cx cy r a0 stretch).1
        (ellipsePoint cx cy r a0 stretch).2,
       PathCmd.A r (r * stretch) 0 0
         (if 0 ≤ (k : ℝ) * (2 * Real.pi) then 1 else 0)
         (ellipsePoint cx cy r a0 stretch).1
         (ellipsePoint cx cy r a0 stretch).2]) ∧
    (∃ seg, (buildData themes [b]).outerSegments = [seg] ∧
      seg.a0 = -(Real.pi / 2) ∧ seg.a1 = seg.a0 + 2 * Real.pi) ∧
    ellipticalWedgePath cx cy r0 r1 a0 (a0 + 2 * Real.pi) stretch =
      [PathCmd.M (ellipsePoint cx cy r1 a0 stretch).1
        (ellipsePoint cx cy r1 a0 stretch).2,
       PathCmd.A r1 (r1 * stretch) 0 0 1
         (ellipsePoint cx cy r1 a0 stretch).1
         (ellipsePoint cx cy r1 a0 stretch).2,
       PathCmd.L (ellipsePoint cx cy r0 a0 stretch).1
         (ellipsePoint cx cy r0 a0 stretch).2,
       PathCmd.L (ellipsePoint cx cy r0 a0 stretch).1
         (ellipsePoint cx cy r0 a0 stretch).2,
       PathCmd.A r0 (r0 * stretch) 0 0 0
         (ellipsePoint cx cy r0 a0 stretch).1
         (ellipsePoint cx cy r0 a0 stretch).2,
       PathCmd.Z] := by
  refine ⟨ellipticalArcPath_full_circle cx cy r a0 stretch k, ?_, ?_⟩
  · have hspan : ringPerBarrierSpan [b] = 2 * Real.pi := by
      rw [ringPerBarrierSpan, ringTotalBarriers]
      norm_num [CLOCKWISE]
    have hlen1 : (buildData themes [b]).outerSegments.length = 1 := by
      rw [buildData_outer_length themes [b] hnd]
      simp [hmem]
    obtain ⟨seg, hseg⟩ := List.length_eq_one.1 hlen1
    refine ⟨seg, hseg, ?_, ?_⟩
    · have hh : (buildData themes [b]).outerSegments.head? = some seg := by
        rw [hseg]
        rfl
      have := themeLoop_head? (groupBarriersByTheme [b] (ringThemeIds themes))
        (ringPerBarrierSpan [b]) (ringThemeIds themes) START_ANGLE seg hh
      rw [this, START_ANGLE]
    · have hsm : seg ∈ (buildData themes [b]).outerSegments := by
        rw [hseg]
        exact List.mem_cons_self _ _
      have := (themeLoop_outer_mem (groupBarriersByTheme [b] (ringThemeIds themes))
        (ringPerBarrierSpan [b]) (ringThemeIds themes) START_ANGLE seg hsm).2.1
      rw [this, hspan]
  · rw [ellipticalWedgePath]
    have houter := ellipticalArcPath_full_circle cx cy r1 a0 stretch 1
    have hinner := ellipticalArcPath_full_circle cx cy r0 (a0 + 2 * Real.pi)
      stretch (-1)
    have h1 : a0 + (1 : ℤ) * (2 * Real.pi) = a0 + 2 * Real.pi := by
      push_cast
      ring
    have h2 : a0 + 2 * Real.pi + ((-1 : ℤ) : ℝ) * (2 * Real.pi) = a0 := by
      push_cast
      ring
    rw [h1] at houter
    rw [h2] at hinner
    have hp2 : ellipsePoint cx cy r0 (a0 + 2 * Real.pi) stretch =
        ellipsePoint cx cy r0 a0 stretch := by
      have := ellipsePoint_add_int_mul_two_pi cx cy r0 a0 stretch 1
      rw [h1] at this
      exact this
    rw [houter, hinner, hp2, demoteM]
    have hswout : (if 0 ≤ ((1 : ℤ) : ℝ) * (2 * Real.pi) then 1 else 0) = 1 := by
      rw [if_pos (by positivity)]
    have hswin : (if 0 ≤ ((-1 : ℤ) : ℝ) * (2 * Real.pi) then 1 else 0) = 0 := by
      rw [if_neg]
      push_cast
      nlinarith [Real.pi_pos]
    rw [hswout, hswin]
    rfl

theorem c10_witness :
    ∃ seg, (buildData wThemes [⟨"b1", "B1", "t1"⟩]).outerSegments = [seg] ∧
      seg.a0 = -(Real.pi / 2) ∧ seg.a1 = seg.a0 + 2 * Real.pi :=
  (c10_full_circle_degenerates 0 0 1 1 2 0 1 1 wThemes ⟨"b1", "B1", "t1"⟩
    (by rw [wThemeIds]; simp) (by rw [wThemeIds]; simp)).2.1

/-! ## C4: the inner-label font search is total -/

theorem innerFindLayout_some (cand : Nat → InnerLayout) (accept : Nat → Prop)
    (dflt : InnerLayout) :
    ∀ (font : Nat) (fb : InnerLayout),
      (∃ f, 14 ≤ f ∧ f ≤ font ∧ accept f ∧
        (∀ g, f < g → g ≤ font → ¬ accept g) ∧
        innerFindLayout cand accept dflt font (some fb) = cand f) ∨
      ((∀ f, 14 ≤ f → f ≤ font → ¬ accept f) ∧
        innerFindLayout cand accept dflt font (some fb) = fb) := by
  intro font
  induction font using Nat.strong_induction_on with
  | _ font ih =>
    intro fb
    by_cases h14 : 14 ≤ font
    · rw [innerFindLayout]
      rw [dif_pos h14]
      by_cases hacc : accept font
      · left
        refine ⟨font, h14, le_refl _, hacc, ?_, ?_⟩
        · intro g hg1 hg2
          omega
        · simp only [if_pos hacc]
      · have hrec := ih (font - 1) (by omega) fb
        simp only [if_neg hacc, Option.getD_some]
        rcases hrec with ⟨f, hf1, hf2, hf3, hf4, hf5⟩ | ⟨hall, heq⟩
        · left
          refine ⟨f, hf1, by omega, hf3, ?_, hf5⟩
          intro g hg1 hg2
          by_cases hg : g ≤ font - 1
          · exact hf4 g hg1 hg
          · have : g = font := by omega
            rw [this]
            exact hacc
        · right
          refine ⟨?_, heq⟩
          intro f hf1 hf2
          by_cases hf : f ≤ font - 1
          · exact hall f hf1 hf
          · have : f = font := by omega
            rw [this]
            exact hacc
    · right
      rw [innerFindLayout]
      rw [dif_neg h14]
      exact ⟨fun f hf1 hf2 => by omega, rfl⟩

theorem innerFindLayout_none (cand : Nat → InnerLayout) (accept : Nat → Prop)
    (dflt : InnerLayout) (font : Nat) (h14 : 14 ≤ font) :
    (∃ f, 14 ≤ f ∧ f ≤ font ∧ accept f ∧
      (∀ g, f < g → g ≤ font → ¬ accept g) ∧
      innerFindLayout cand accept dflt font none = cand f) ∨
    ((∀ f, 14 ≤ f → f ≤ font → ¬ accept f) ∧
      innerFindLayout cand accept dflt font none = cand font) := by
  rw [innerFindLayout]
  rw [dif_pos h14]
  by_cases hacc : accept font
  · left
    refine ⟨font, h14, le_refl _, hacc, ?_, ?_⟩
    · intro g hg1 hg2
      omega
    · simp only [if_pos hacc]
  · simp only [if_neg hacc, Option.getD_none]
    have hrec := innerFindLayout_some cand accept dflt (font - 1) (cand font)
    rcases hrec with ⟨f, hf1, hf2, hf3, hf4, hf5⟩ | ⟨hall, heq⟩
    · left
      refine ⟨f, hf1, by omega, hf3, ?_, hf5⟩
      intro g hg1 hg2
      by_cases hg : g ≤ font - 1
      · exact hf4 g hg1 hg
      · have : g = font := by omega
        rw [this]
        exact hacc
    · right
      refine ⟨?_, heq⟩
      intro f hf1 hf2
      by_cases hf : f ≤ font - 1
      · exact hall f hf1 hf
      · have : f = font := by omega
        rw [this]
        exact hacc

/-- C4: for every segment and label text the inner-label fitting search
returns a defined layout: either the candidate at the largest font in
`[14, 44]` passing both the width check (0.92 of the arc length at each
line's clamped radius) and the spacing check (`font * 0.6`), every larger
font having failed, or — when no font in `[14, 44]` passes — the first
(font 44) candidate computed.  The dead last-resort default is never
reached. -/
theorem c4_inner_label_total (cx cy stretch a0 a1 : ℝ) (text : String) :
    (∃ f, 14 ≤ f ∧ f ≤ 44 ∧ innerAccept cx cy stretch a0 a1 text f ∧
      (∀ g, f < g → g ≤ 44 → ¬ innerAccept cx cy stretch a0 a1 text g) ∧
      innerLabelLayout cx cy stretch a0 a1 text =
        innerCandidate cx cy stretch a0 a1 text f) ∨
    ((∀ f, 14 ≤ f → f ≤ 44 → ¬ innerAccept cx cy stretch a0 a1 text f) ∧
      innerLabelLayout cx cy stretch a0 a1 text =
        innerCandidate cx cy stretch a0 a1 text 44) :=
  innerFindLayout_none (innerCandidate cx cy stretch a0 a1 text)
    (innerAccept cx cy stretch a0 a1 text) _ 44 (by norm_num)

/-! ## C6: the outer (barrier) label fit -/

theorem wrapLoop_length_le (charPx maxWidthPx : ℝ) (maxLines : Nat) :
    ∀ (words lines : List String) (line : String),
      (wrapLoop charPx maxWidthPx maxLines words lines line).length ≤
        maxLines := by
  intro words
  induction words with
  | nil =>
    intro lines line
    rw [wrapLoop]
    split_ifs <;> exact List.length_take_le _ _
  | cons w ws ih =>
    intro lines line
    rw [wrapLoop]
    split_ifs <;>
      first
        | exact ih _ _
        | exact List.length_take_le _ _

theorem wrapToLines_length_le (text : String) (maxWidthPx : ℝ)
    (maxLines font : Nat) :
    (wrapToLines text maxWidthPx maxLines font).length ≤ maxLines :=
  wrapLoop_length_le _ _ _ _ _ _

theorem outerFontLoop_spec (name : String) (avail availHalf : ℝ) :
    ∀ (font : Nat) (lines : List String), 12 ≤ font →
      (∃ f, 12 ≤ f ∧ f ≤ font ∧
        outerOk avail availHalf f (wrapToLines name avail 5 f) ∧
        (∀ g, f < g → g ≤ font →
          ¬ outerOk avail availHalf g (wrapToLines name avail 5 g)) ∧
        outerFontLoop name avail availHalf font lines =
          (f, wrapToLines name avail 5 f)) ∨
      ((∀ f, 12 ≤ f → f ≤ font →
          ¬ outerOk avail availHalf f (wrapToLines name avail 5 f)) ∧
        outerFontLoop name avail availHalf font lines =
          (11, wrapToLines name avail 5 12)) := by
  intro font
  induction font using Nat.strong_induction_on with
  | _ font ih =>
    intro lines h12
    rw [outerFontLoop]
    rw [dif_pos h12]
    by_cases hok : outerOk avail availHalf font (wrapToLines name avail 5 font)
    · left
      refine ⟨font, h12, le_refl _, hok, ?_, ?_⟩
      · intro g hg1 hg2
        omega
      · simp only [if_pos hok]
    · simp only [if_neg hok]
      by_cases h13 : 12 ≤ font - 1
      · have hrec := ih (font - 1) (by omega) (wrapToLines name avail 5 font) h13
        rcases hrec with ⟨f, hf1, hf2, hf3, hf4, hf5⟩ | ⟨hall, heq⟩
        · left
          refine ⟨f, hf1, by omega, hf3, ?_, hf5⟩
          intro g hg1 hg2
          by_cases hg : g ≤ font - 1
          · exact hf4 g hg1 hg
          · have : g = font := by omega
            rw [this]
            exact hok
        · right
          refine ⟨?_, heq⟩
          intro f hf1 hf2
          by_cases hf : f ≤ font - 1
          · exact hall f hf1 hf
          · have : f = font := by omega
            rw [this]
            exact hok
      · right
        have hfont : font = 12 := by omega
        subst hfont
        refine ⟨?_, ?_⟩
        · intro f hf1 hf2
          have : f = 12 := by omega
          rw [this]
          exact hok
        · show outerFontLoop name avail availHalf 11 (wrapToLines name avail 5 12) =
            (11, wrapToLines name avail 5 12)
          rw [outerFontLoop]
          rw [dif_neg (by omega)]

/-- C6 (amended): the available width of the barrier-label fit is
`max(60, 1.4 × 4 rLabel sin(paddedSpan/2))` — the second export variant
doubles the true chord `2 r sin(span/2)` (the first variant uses the
chord itself) — at the label radius `rLabel = 930`; the search descends
from font 50 to floor 12, wraps into at most 5 lines, accepts the first
font passing the width check and the radial check (half the stacked line
height within the radial half-band), and on total failure leaves font 11
with the last (font 12) wrap. -/
theorem c6_outer_label_fit (name : String) (r s avail availHalf : ℝ) :
    outerAvail r s = max 60 (4 * r * Real.sin (s / 2) * 1.4) ∧
    outerRLabel = 930 ∧
    (∀ font : Nat, (wrapToLines name avail 5 font).length ≤ 5) ∧
    ((∃ f, 12 ≤ f ∧ f ≤ 50 ∧
        outerOk avail availHalf f (wrapToLines name avail 5 f) ∧
        (∀ g, f < g → g ≤ 50 →
          ¬ outerOk avail availHalf g (wrapToLines name avail 5 g)) ∧
        outerLabelFit name avail availHalf =
          (f, wrapToLines name avail 5 f)) ∨
      ((∀ f, 12 ≤ f → f ≤ 50 →
          ¬ outerOk avail availHalf f (wrapToLines name avail 5 f)) ∧
        outerLabelFit name avail availHalf =
          (11, wrapToLines name avail 5 12))) := by
  refine ⟨rfl, ?_, fun font => wrapToLines_length_le _ _ _ _, ?_⟩
  · rw [outerRLabel, outerR0, outerR1]
    norm_num
  · exact outerFontLoop_spec name avail availHalf 50 [] (by norm_num)

/-- C6 counterexample: at the label radius 930 and padded span `π/2` the
code's available width (from `4 r sin(span/2)`) differs from the claimed
`2 r sin(span/2) × 1.4` floored at 60. -/
theorem c6_counterexample :
    outerAvail 930 (Real.pi / 2) ≠ outerAvailClaimed 930 (Real.pi / 2) := by
  rw [outerAvail, outerChord, outerAvailClaimed]
  have hsin : Real.sin (Real.pi / 2 / 2) = Real.sqrt 2 / 2 := by
    rw [show Real.pi / 2 / 2 = Real.pi / 4 by ring, Real.sin_pi_div_four]
  rw [hsin]
  have hsqrt : 1 < Real.sqrt 2 := by
    rw [show (1 : ℝ) = Real.sqrt 1 from Real.sqrt_one.symm]
    exact Real.sqrt_lt_sqrt (by norm_num) (by norm_num)
  have h1 : (60 : ℝ) < 2 * 930 * (Real.sqrt 2 / 2) * 1.4 := by nlinarith
  have h2 : (60 : ℝ) < 4 * 930 * (Real.sqrt 2 / 2) * 1.4 := by nlinarith
  rw [max_eq_right h1.le, max_eq_right h2.le]
  intro hc
  nlinarith [hsqrt]

end Ring
